import Mathlib

/-!
A verification development for the `rust-mmr` repository: a stateless Merkle
Mountain Range (MMR) over a half-open interval `[start, end)` of u64 leaf
indices, with bit-level range arithmetic (`decompose`,
`get_expected_num_peaks`), `append`, `get_root` and `merge`.

Embedding conventions:
* u64 values are `Nat`; the u64 complement `!x` is `x ^^^ (2 ^ 64 - 1)`, and
  `+ 1` on `end` is reduced `% 2 ^ 64` (release-mode wrapping); all claims
  below carry the bounds under which wrapping cannot occur.
* Digests are a type parameter `D`; the Keccak-256 combiner `hash_to_parent`
  is an abstract binary function `H : D → D → D`, and the distinguished
  all-zero digest is an abstract `zero : D`.  This matches the crate, whose
  core consults the digest only through `hash_to_parent` and `B256::ZERO`.
* Rust panics (`unwrap` on an empty vector, index out of bounds, integer
  underflow of a cursor, and the debug-profile arithmetic overflows inside
  the merge loop) are modeled as `Option.none`; the u64 left shift silently
  truncates overflowed value bits in both profiles, modeled as `% 2 ^ 64`.
* The bounded helper recursions (`count_ones`, `trailing_zeros`, `ilog2`) are
  fuel-indexed structural recursions (fuel 64 = the u64 width) so that closed
  terms reduce in the kernel.
-/

/-- Fuel-indexed bit-population count; `count_onesAux fuel n` is the number of
set bits of `n` whenever `n < 2 ^ fuel`. -/
def count_onesAux : Nat → Nat → Nat
  | 0, _ => 0
  | fuel + 1, n => if n = 0 then 0 else n % 2 + count_onesAux fuel (n / 2)

/-- The operation `u64::count_ones` (a `Nat` smaller than `2 ^ 64` has at most 64 bits). -/
def count_ones (n : Nat) : Nat := count_onesAux 64 n

/-- Fuel-indexed count of trailing zero bits; on `n = 0` it returns the fuel,
matching `u64::trailing_zeros(0) = 64` at fuel 64. -/
def trailing_zerosAux : Nat → Nat → Nat
  | 0, _ => 0
  | fuel + 1, n => if n % 2 = 1 then 0 else trailing_zerosAux fuel (n / 2) + 1

/-- The operation `u64::trailing_zeros`. -/
def trailing_zeros (n : Nat) : Nat := trailing_zerosAux 64 n

/-- Fuel-indexed floor of the base-2 logarithm. -/
def ilog2Aux : Nat → Nat → Nat
  | 0, _ => 0
  | fuel + 1, n => if 2 ≤ n then ilog2Aux fuel (n / 2) + 1 else 0

/-- The operation `u64::ilog2`.  Rust panics on input `0`; `decompose` only applies it to a
nonzero argument, and this total model returns `0` there. -/
def ilog2 (n : Nat) : Nat := ilog2Aux 64 n

/-- The function `decompose` from `src/utils/range.rs`: splits `[begin, end)` into the left
and right peak bitmaps.  `!x_begin & mask` is `(x_begin ^^^ (2^64-1)) &&& mask`. -/
def decompose (begin «end» : Nat) : Nat × Nat :=
  if begin = 0 then (0, «end»)
  else
    let x_begin := begin - 1
    let diverge := ilog2 (x_begin ^^^ «end»)
    let mask := (1 <<< diverge) - 1
    ((x_begin ^^^ (2 ^ 64 - 1)) &&& mask, «end» &&& mask)

/-- The function `get_expected_num_peaks` from `src/utils/range.rs`. -/
def get_expected_num_peaks (begin «end» : Nat) : Nat :=
  let lr := decompose begin «end»
  count_ones lr.1 + count_ones lr.2

instance {ε α : Type} [DecidableEq ε] [DecidableEq α] : DecidableEq (Except ε α) := fun x y =>
  match x, y with
  | .error a, .error b =>
    match decEq a b with
    | isTrue h => isTrue (h ▸ rfl)
    | isFalse h => isFalse fun hc => h (by injection hc)
  | .ok a, .ok b =>
    match decEq a b with
    | isTrue h => isTrue (h ▸ rfl)
    | isFalse h => isFalse fun hc => h (by injection hc)
  | .error _, .ok _ => isFalse fun hc => Except.noConfusion hc
  | .ok _, .error _ => isFalse fun hc => Except.noConfusion hc

/-- The error enum from `src/error.rs`. -/
inductive MMRError where
  | StartGreaterThanEnd
  | InvalidNumberOfPeaks
  | MergeError
deriving DecidableEq

/-- The `MMR` struct from `src/mmr.rs`. -/
structure MMR (D : Type) where
  start : Nat
  «end» : Nat
  peaks : List D
deriving DecidableEq

namespace MMR

variable {D : Type} (H : D → D → D)

/-- The constructor `MMR::new`. -/
def new : MMR D := ⟨0, 0, []⟩

/-- The constructor `MMR::from_params`. -/
def from_params (start «end» : Nat) (peaks : List D) : Except MMRError (MMR D) :=
  if start > «end» then .error .StartGreaterThanEnd
  else if get_expected_num_peaks start «end» ≠ peaks.length then .error .InvalidNumberOfPeaks
  else .ok ⟨start, «end», peaks⟩

/-- The accessor `MMR::size`. -/
def size (m : MMR D) : Nat := m.«end» - m.start

/-- The method `MMR::append`.  Here `peaks[peaks_to_keep..].iter().rfold(element, …)` is the
right fold of the combiner over the dropped tail with `element` as the initial
accumulator; `self.end += 1` is u64 addition, whose wrap at `2^64 - 1` the
claims exclude by hypothesis. -/
def append (m : MMR D) (element : D) : MMR D :=
  let right := (decompose m.start m.«end»).2
  let least_significant_unset_bit_idx := trailing_zeros (right ^^^ (2 ^ 64 - 1))
  let peaks_to_keep := m.peaks.length - least_significant_unset_bit_idx
  let new_peak := (m.peaks.drop peaks_to_keep).foldr (fun peak acc => H peak acc) element
  ⟨m.start, (m.«end» + 1) % 2 ^ 64, m.peaks.take peaks_to_keep ++ [new_peak]⟩

/-- The constructor `MMR::from_leaves`: fold `append` over the leaves starting from `new`. -/
def from_leaves (leaves : List D) : MMR D := leaves.foldl (fun m l => append H m l) new

/-- The method `MMR::get_root`.  The two `Option` folds are the source's
`fold(None, …)` / `rfold(None, …)` bagging passes.  The slicing
`peaks[..n]` / `peaks[n..]` can only panic on states that violate the peak
count invariant, which no claim reaches; `take` / `drop` agree with it on all
valid states. -/
def get_root [DecidableEq D] (zero : D) (m : MMR D) : D :=
  if m.peaks = [] then zero
  else
    let left := (decompose m.start m.«end»).1
    let left_root := ((m.peaks.take (count_ones left)).foldl
      (fun acc peak => match acc with
        | none => some peak
        | some prev => some (H prev peak)) none).getD zero
    let right_root := ((m.peaks.drop (count_ones left)).foldr
      (fun peak acc => match acc with
        | none => some peak
        | some prev => some (H peak prev)) none).getD zero
    if left_root = zero then right_root
    else if right_root = zero then left_root
    else H left_root right_root

/-- The `while seed_height < 255` loop of `MMR::merge`, with the loop state
`(seed, seed_height, seed_index, left_cursor, right_cursor)` passed
explicitly.  One fuel unit is spent per iteration; since every iteration
increments `seed_height`, fuel 255 can only run out once `seed_height ≥ 255`,
where the guard stops the loop anyway, so the fuel-exhausted branch is
unreachable.  The body's u64 arithmetic is modeled bit-faithfully:

* `layer_coverage << 1` on a u64 silently discards the bit shifted past
  position 63 (in both Rust profiles only the shift *amount* is checked,
  never the value), hence the `% 2 ^ 64`.  At `seed_height = 63` this zeroes
  the doubled coverage, so `merged_range_end` collapses to `seed_range_start`,
  the break test fails, and the loop indexes `other.peaks` out of bounds on
  reachable valid inputs (see the C4 artifacts below).
* `1 << seed_height` with `seed_height ≥ 64` and an overflowing
  `seed_range_start + …` addition panic in Rust's debug profile, modeled by
  the two `none` guards (the release profile would instead mask the shift
  amount and wrap the addition).  Both guards require `b.end ≥ 2 ^ 63` to be
  reached; every theorem below either stays strictly under them — heights
  `≤ 62` and sums `< 2 ^ 64`, where the two profiles agree — or exhibits the
  out-of-bounds indexing panic, which occurs in both profiles.

`none` also models the indexing panics: `other.peaks[right_cursor]` out of
bounds, and the `left_cursor -= 1` underflow (in release mode the wrapped
cursor still panics as an out-of-bounds index). -/
def mergeLoop (self_peaks other_peaks : List D) (other_end seed_range_start : Nat) :
    Nat → D → Nat → Nat → Nat → Nat → Option (D × Nat × Nat)
  | 0, seed, _, _, left_cursor, right_cursor => some (seed, left_cursor, right_cursor)
  | fuel + 1, seed, seed_height, seed_index, left_cursor, right_cursor =>
    if 255 ≤ seed_height then some (seed, left_cursor, right_cursor)
    else if 64 ≤ seed_height then none
    else
      let layer_coverage := 1 <<< seed_height
      if seed_index % 2 = 0 then
        -- Right merge, or break if not possible.
        let merged_range_end := seed_range_start + (layer_coverage <<< 1) % 2 ^ 64
        if 2 ^ 64 ≤ merged_range_end then none
        else if other_end < merged_range_end then
          some (seed, left_cursor, right_cursor)
        else
          match other_peaks[right_cursor]? with
          | none => none
          | some p =>
            mergeLoop self_peaks other_peaks other_end seed_range_start fuel
              (H seed p) (seed_height + 1) (seed_index / 2) left_cursor (right_cursor + 1)
      else
        -- Left merge, or break if not possible.
        if seed_range_start < layer_coverage then
          some (seed, left_cursor, right_cursor)
        else if left_cursor = 0 then none
        else
          match self_peaks[left_cursor - 1]? with
          | none => none
          | some p =>
            mergeLoop self_peaks other_peaks other_end seed_range_start fuel
              (H p seed) (seed_height + 1) (seed_index / 2) (left_cursor - 1) right_cursor

/-- The method `MMR::merge`.  The `self.peaks.last().unwrap()` panic on an empty left
MMR is the `none` of the `getLast?` match.  On a valid nonempty left MMR
`self.end ≥ 1`, so the `self.end - 1` u64 subtraction never underflows and
agrees with `Nat` subtraction. -/
def merge (a b : MMR D) : Option (Except MMRError (MMR D)) :=
  if a.«end» ≠ b.start then some (.error .MergeError)
  else if a.start ≠ 0 then some (.error .MergeError)
  else
    match a.peaks.getLast? with
    | none => none
    | some seed0 =>
      let seed_height := trailing_zeros a.«end»
      let seed_index := (a.«end» - 1) >>> seed_height
      let seed_range_start := seed_index * (1 <<< seed_height)
      match mergeLoop H a.peaks b.peaks b.«end» seed_range_start 255
          seed0 seed_height seed_index (a.peaks.length - 1) 0 with
      | none => none
      | some (seed, left_cursor, right_cursor) =>
        some (.ok ⟨a.start, b.«end»,
          a.peaks.take left_cursor ++ [seed] ++ b.peaks.drop right_cursor⟩)

/-- The representation invariant of a `u64`-indexed MMR: the fields fit in
u64, `start ≤ end`, and the peak count matches the compact range of
`[start, end)`.  `from_params` accepts exactly the in-bound triples satisfying
it. -/
def isValid (m : MMR D) : Prop :=
  m.start ≤ m.«end» ∧ m.«end» < 2 ^ 64 ∧
    m.peaks.length = get_expected_num_peaks m.start m.«end»

instance (m : MMR D) : Decidable (isValid m) := by
  unfold isValid; infer_instance

end MMR

/-! ### Arithmetic toolbox

`pc` is a fuel-free population count used only inside proofs; it agrees with
the executable `count_ones` on all u64 values. -/

def pc : Nat → Nat
  | 0 => 0
  | n + 1 => (n + 1) % 2 + pc ((n + 1) / 2)
decreasing_by omega

theorem pc_eq (n : Nat) : pc n = n % 2 + pc (n / 2) := by
  cases n with
  | zero => simp [pc]
  | succ m => rw [pc]

theorem pc_bit (n r : Nat) (h : r < 2) : pc (2 * n + r) = pc n + r := by
  rw [pc_eq]
  have h1 : (2 * n + r) % 2 = r := by omega
  have h2 : (2 * n + r) / 2 = n := by omega
  rw [h1, h2]; omega

theorem pc_add_two_pow (i : Nat) : ∀ x, (x / 2 ^ i) % 2 = 0 → pc (x + 2 ^ i) = pc x + 1 := by
  induction i with
  | zero =>
    intro x h
    simp at h
    have hx : x = 2 * (x / 2) + 0 := by omega
    have hx1 : x + 2 ^ 0 = 2 * (x / 2) + 1 := by omega
    rw [hx1, pc_bit _ _ (by omega)]
    conv_rhs => rw [hx, pc_bit _ _ (by omega)]
  | succ i ih =>
    intro x h
    have hsplit : x + 2 ^ (i + 1) = 2 * (x / 2 + 2 ^ i) + x % 2 := by
      have : 2 ^ (i + 1) = 2 * 2 ^ i := by rw [Nat.pow_succ]; omega
      omega
    have hbit : (x / 2 / 2 ^ i) % 2 = 0 := by
      rw [Nat.div_div_eq_div_mul]
      have : 2 * 2 ^ i = 2 ^ (i + 1) := by rw [Nat.pow_succ]; omega
      rw [this]; exact h
    rw [hsplit, pc_bit _ _ (by omega), ih _ hbit]
    conv_rhs => rw [show x = 2 * (x / 2) + x % 2 by omega, pc_bit _ _ (by omega)]
    omega

theorem pc_mod_two_pow_succ (x i : Nat) :
    pc (x % 2 ^ (i + 1)) = pc (x % 2 ^ i) + (x / 2 ^ i) % 2 := by
  have hm : x % 2 ^ (i + 1) = x % 2 ^ i + 2 ^ i * (x / 2 ^ i % 2) := by
    have : (2 : Nat) ^ (i + 1) = 2 ^ i * 2 := by rw [Nat.pow_succ]
    rw [this, Nat.mod_mul]
  rcases Nat.mod_two_eq_zero_or_one (x / 2 ^ i) with h | h
  · rw [h] at hm ⊢
    simp only [Nat.mul_zero, Nat.add_zero] at hm
    rw [hm]
    omega
  · rw [h] at hm ⊢
    rw [Nat.mul_one] at hm
    rw [hm, pc_add_two_pow i _ (by
      have hx : x % 2 ^ i < 2 ^ i := Nat.mod_lt _ (Nat.two_pow_pos i)
      rw [Nat.div_eq_of_lt hx])]

theorem pc_mod_le (x i j : Nat) (h : i ≤ j) : pc (x % 2 ^ j) ≤ pc (x % 2 ^ i) + (j - i) := by
  induction j, h using Nat.le_induction with
  | base => omega
  | succ j hj ih => rw [pc_mod_two_pow_succ]; omega

theorem pc_le_of_lt_two_pow (k : Nat) : ∀ x, x < 2 ^ k → pc x ≤ k := by
  induction k with
  | zero => intro x h; interval_cases x; simp [pc]
  | succ k ih =>
    intro x h
    rw [pc_eq]
    have : x / 2 < 2 ^ k := by
      have : (2 : Nat) ^ (k + 1) = 2 * 2 ^ k := by rw [Nat.pow_succ]; omega
      omega
    have := ih _ this
    omega

theorem pc_two_pow_mul (k m : Nat) : pc (2 ^ k * m) = pc m := by
  induction k with
  | zero => simp
  | succ k ih =>
    have h : 2 ^ (k + 1) * m = 2 * (2 ^ k * m) + 0 := by rw [Nat.pow_succ]; ring
    rw [h, pc_bit _ _ (by omega), ih]
    omega

theorem pc_two_pow_sub_one (k : Nat) : pc (2 ^ k - 1) = k := by
  induction k with
  | zero => simp [pc]
  | succ k ih =>
    have : 2 ^ (k + 1) - 1 = 2 * (2 ^ k - 1) + 1 := by
      have : (2 : Nat) ^ (k + 1) = 2 * 2 ^ k := by rw [Nat.pow_succ]; omega
      have := Nat.two_pow_pos k
      omega
    rw [this, pc_bit _ _ (by omega), ih]

theorem pc_two_pow_mul_add (t q r : Nat) (h : r < 2 ^ t) : pc (2 ^ t * q + r) = pc q + pc r := by
  induction t generalizing q r with
  | zero =>
    have : r = 0 := by simpa using h
    simp [this, pc]
  | succ t ih =>
    have hmul : 2 ^ (t + 1) * q = 2 * (2 ^ t * q) := by rw [Nat.pow_succ]; ring
    have hsplit : 2 ^ (t + 1) * q + r = 2 * (2 ^ t * q + r / 2) + r % 2 := by omega
    have hr2 : r / 2 < 2 ^ t := by
      have : (2 : Nat) ^ (t + 1) = 2 * 2 ^ t := by rw [Nat.pow_succ]; omega
      omega
    rw [hsplit, pc_bit _ _ (by omega), ih _ _ hr2]
    conv_rhs => rw [pc_eq r]
    omega

theorem count_onesAux_eq_pc : ∀ f n, n < 2 ^ f → count_onesAux f n = pc n := by
  intro f
  induction f with
  | zero => intro n h; interval_cases n; simp [count_onesAux, pc]
  | succ f ih =>
    intro n h
    by_cases hn : n = 0
    · simp [hn, count_onesAux, pc]
    · rw [show count_onesAux (f + 1) n = n % 2 + count_onesAux f (n / 2) by
        simp [count_onesAux, hn]]
      have hd : n / 2 < 2 ^ f := by
        have : (2 : Nat) ^ (f + 1) = 2 * 2 ^ f := by rw [Nat.pow_succ]; omega
        omega
      rw [ih _ hd, ← pc_eq]

theorem count_ones_eq_pc (n : Nat) (h : n < 2 ^ 64) : count_ones n = pc n :=
  count_onesAux_eq_pc 64 n h

theorem trailing_zerosAux_two_pow_mul :
    ∀ k f m, k < f → m % 2 = 1 → trailing_zerosAux f (2 ^ k * m) = k := by
  intro k
  induction k with
  | zero =>
    intro f m hf hm
    match f, hf with
    | f + 1, _ => simpa [trailing_zerosAux] using hm
  | succ k ih =>
    intro f m hf hm
    match f, hf with
    | f + 1, hf =>
      have heven : (2 ^ (k + 1) * m) % 2 = 0 := by
        have : 2 ^ (k + 1) * m = 2 * (2 ^ k * m) := by rw [Nat.pow_succ]; ring
        omega
      have hdiv : (2 ^ (k + 1) * m) / 2 = 2 ^ k * m := by
        have : 2 ^ (k + 1) * m = 2 * (2 ^ k * m) := by rw [Nat.pow_succ]; ring
        omega
      simp only [trailing_zerosAux, heven]
      rw [if_neg (by omega), hdiv, ih f m (by omega) hm]

theorem trailing_zeros_two_pow_mul (k m : Nat) (hk : k < 64) (hm : m % 2 = 1) :
    trailing_zeros (2 ^ k * m) = k :=
  trailing_zerosAux_two_pow_mul k 64 m hk hm

theorem trailing_zerosAux_exists :
    ∀ f n, 0 < n → n < 2 ^ f → ∃ c, n = 2 ^ trailing_zerosAux f n * (2 * c + 1) := by
  intro f
  induction f with
  | zero => intro n h1 h2; omega
  | succ f ih =>
    intro n h1 h2
    by_cases hodd : n % 2 = 1
    · exact ⟨n / 2, by simp [trailing_zerosAux, hodd]; omega⟩
    · have hd : n / 2 < 2 ^ f := by
        have : (2 : Nat) ^ (f + 1) = 2 * 2 ^ f := by rw [Nat.pow_succ]; omega
        omega
      obtain ⟨c, hc⟩ := ih (n / 2) (by omega) hd
      refine ⟨c, ?_⟩
      simp only [trailing_zerosAux]
      rw [if_neg hodd]
      have hp : 2 ^ (trailing_zerosAux f (n / 2) + 1) * (2 * c + 1) =
          2 * (2 ^ trailing_zerosAux f (n / 2) * (2 * c + 1)) := by rw [Nat.pow_succ]; ring
      rw [hp, ← hc]
      omega

theorem trailing_zeros_exists (n : Nat) (h1 : 0 < n) (h2 : n < 2 ^ 64) :
    ∃ c, n = 2 ^ trailing_zeros n * (2 * c + 1) :=
  trailing_zerosAux_exists 64 n h1 h2

theorem ilog2Aux_spec :
    ∀ f n, 0 < n → n < 2 ^ f → 2 ^ ilog2Aux f n ≤ n ∧ n < 2 ^ (ilog2Aux f n + 1) := by
  intro f
  induction f with
  | zero => intro n h1 h2; omega
  | succ f ih =>
    intro n h1 h2
    by_cases hn : 2 ≤ n
    · have hd : n / 2 < 2 ^ f := by
        have : (2 : Nat) ^ (f + 1) = 2 * 2 ^ f := by rw [Nat.pow_succ]; omega
        omega
      obtain ⟨ih1, ih2⟩ := ih (n / 2) (by omega) hd
      simp only [ilog2Aux, if_pos hn]
      constructor
      · calc 2 ^ (ilog2Aux f (n / 2) + 1) = 2 * 2 ^ ilog2Aux f (n / 2) := by
              rw [Nat.pow_succ]; omega
          _ ≤ 2 * (n / 2) := by omega
          _ ≤ n := by omega
      · calc n < 2 * (n / 2) + 2 := by omega
          _ ≤ 2 * 2 ^ (ilog2Aux f (n / 2) + 1) := by
              have := Nat.two_pow_pos (ilog2Aux f (n / 2) + 1)
              omega
          _ = 2 ^ (ilog2Aux f (n / 2) + 1 + 1) := by rw [Nat.pow_succ]; omega
    · simp only [ilog2Aux, if_neg hn]
      omega

theorem ilog2_spec (n : Nat) (h1 : 0 < n) (h2 : n < 2 ^ 64) :
    2 ^ ilog2 n ≤ n ∧ n < 2 ^ (ilog2 n + 1) :=
  ilog2Aux_spec 64 n h1 h2

theorem ilog2_le_63 (n : Nat) (h1 : 0 < n) (h2 : n < 2 ^ 64) : ilog2 n ≤ 63 := by
  obtain ⟨h3, _⟩ := ilog2_spec n h1 h2
  by_contra hc
  have : (2 : Nat) ^ 64 ≤ 2 ^ ilog2 n := Nat.pow_le_pow_right (by omega) (by omega)
  omega

theorem xor_div_two_pow (k : Nat) : ∀ a b : Nat, (a ^^^ b) / 2 ^ k = a / 2 ^ k ^^^ b / 2 ^ k := by
  induction k with
  | zero => simp
  | succ k ih =>
    intro a b
    have h2 : (2 : Nat) ^ (k + 1) = 2 ^ k * 2 := by rw [Nat.pow_succ]
    rw [h2, ← Nat.div_div_eq_div_mul, ← Nat.div_div_eq_div_mul, ← Nat.div_div_eq_div_mul,
      ih, Nat.xor_div_two]

theorem xor_mod_two_pow (a b k : Nat) : (a ^^^ b) % 2 ^ k = a % 2 ^ k ^^^ b % 2 ^ k := by
  rw [← Nat.and_pow_two_sub_one_eq_mod, ← Nat.and_pow_two_sub_one_eq_mod,
    ← Nat.and_pow_two_sub_one_eq_mod, Nat.and_xor_distrib_right]

theorem xor_compl_sum (j : Nat) : ∀ x, x < 2 ^ j → x + (x ^^^ (2 ^ j - 1)) = 2 ^ j - 1 := by
  induction j with
  | zero => intro x h; interval_cases x; simp
  | succ j ih =>
    intro x h
    have h2 : (2 : Nat) ^ (j + 1) = 2 * 2 ^ j := by rw [Nat.pow_succ]; omega
    have hxd : x / 2 < 2 ^ j := by omega
    have ihx := ih (x / 2) hxd
    have hodd : (2 ^ (j + 1) - 1) % 2 = 1 := by
      have := Nat.two_pow_pos (j + 1)
      omega
    have hsplitm : (2 ^ (j + 1) - 1) / 2 = 2 ^ j - 1 := by omega
    have hxor_mod : (x ^^^ (2 ^ (j + 1) - 1)) % 2 = (x + (2 ^ (j + 1) - 1)) % 2 :=
      Nat.xor_mod_two_eq
    have hxor_div : (x ^^^ (2 ^ (j + 1) - 1)) / 2 = x / 2 ^^^ (2 ^ j - 1) := by
      rw [Nat.xor_div_two, hsplitm]
    have hx_decomp := Nat.div_add_mod (x ^^^ (2 ^ (j + 1) - 1)) 2
    have hxm := Nat.div_add_mod x 2
    omega

theorem pc_xor_compl_add (d : Nat) : ∀ y, y < 2 ^ d → pc y + pc (y ^^^ (2 ^ d - 1)) = d := by
  induction d with
  | zero => intro y h; interval_cases y; simp [pc]
  | succ d ih =>
    intro y h
    have h2 : (2 : Nat) ^ (d + 1) = 2 * 2 ^ d := by rw [Nat.pow_succ]; omega
    have hyd : y / 2 < 2 ^ d := by omega
    have ihy := ih (y / 2) hyd
    have hodd : (2 ^ (d + 1) - 1) % 2 = 1 := by
      have := Nat.two_pow_pos (d + 1)
      omega
    have hsplitm : (2 ^ (d + 1) - 1) / 2 = 2 ^ d - 1 := by omega
    have hxor_mod : (y ^^^ (2 ^ (d + 1) - 1)) % 2 = (y + (2 ^ (d + 1) - 1)) % 2 :=
      Nat.xor_mod_two_eq
    have hxor_div : (y ^^^ (2 ^ (d + 1) - 1)) / 2 = y / 2 ^^^ (2 ^ d - 1) := by
      rw [Nat.xor_div_two, hsplitm]
    rw [pc_eq y, pc_eq (y ^^^ (2 ^ (d + 1) - 1)), hxor_div]
    omega

theorem xor_bounds_div_bit (x e d : Nat) (hx : x < e)
    (hd2 : 2 ^ d ≤ x ^^^ e) (hd1 : x ^^^ e < 2 ^ (d + 1)) :
    e / 2 ^ d = x / 2 ^ d + 1 ∧ (x / 2 ^ d) % 2 = 0 := by
  have h2 : (2 : Nat) ^ (d + 1) = 2 ^ d * 2 := by rw [Nat.pow_succ]
  have hhigh : x / 2 ^ (d + 1) = e / 2 ^ (d + 1) := by
    have h0 : (x ^^^ e) / 2 ^ (d + 1) = 0 := Nat.div_eq_of_lt hd1
    rw [xor_div_two_pow] at h0
    exact Nat.xor_eq_zero.mp h0
  have hone : x / 2 ^ d ^^^ e / 2 ^ d = 1 := by
    rw [← xor_div_two_pow]
    have hlt : (x ^^^ e) / 2 ^ d < 2 :=
      Nat.div_lt_of_lt_mul (by omega : x ^^^ e < 2 ^ d * 2)
    have hge : 1 ≤ (x ^^^ e) / 2 ^ d := (Nat.one_le_div_iff (Nat.two_pow_pos d)).mpr hd2
    omega
  have hdivs : x / 2 ^ d / 2 = e / 2 ^ d / 2 := by
    rw [Nat.div_div_eq_div_mul, Nat.div_div_eq_div_mul, ← h2]
    exact hhigh
  have hle : x / 2 ^ d ≤ e / 2 ^ d := Nat.div_le_div_right (by omega)
  have hneq : x / 2 ^ d ≠ e / 2 ^ d := by
    intro hc
    rw [hc, Nat.xor_self] at hone
    omega
  omega

/-! ### Concrete digest instantiations for closed witnesses -/

/-- A concrete combiner on `Nat` digests for closed witnesses; its result is
always positive, so it never collides with the concrete zero digest `0`. -/
def natComb (a b : Nat) : Nat := 2 * a + 3 * b + 1

/-- Digests as explicit hash-expression trees: the free combiner `HTree.node`
identifies two digests exactly when they were built by the same sequence of
combiner calls, so root comparisons are collision-free. -/
inductive HTree where
  | leaf : Nat → HTree
  | node : HTree → HTree → HTree
deriving DecidableEq

/-! ### Claims -/

/-- C5: `decompose(0, end) = (0, end)`; for `0 < begin ≤ end` (in u64 range),
with `x = begin - 1`, `d = ⌊log₂ (x XOR end)⌋` and `m = 2^d - 1`,
`decompose(begin, end) = ((NOT x) AND m, end AND m)` where `NOT` is the 64-bit
complement; and `decompose` maps `(3,17) ↦ (13,1)`, `(4,28) ↦ (12,12)`,
`(11,25) ↦ (5,9)`. -/
theorem decompose_formula :
    (∀ e : Nat, decompose 0 e = (0, e)) ∧
    (∀ b e : Nat, 0 < b → b ≤ e → e < 2 ^ 64 →
      decompose b e =
        (((b - 1) ^^^ (2 ^ 64 - 1)) &&& (2 ^ Nat.log2 ((b - 1) ^^^ e) - 1),
          e &&& (2 ^ Nat.log2 ((b - 1) ^^^ e) - 1))) ∧
    decompose 3 17 = (13, 1) ∧ decompose 4 28 = (12, 12) ∧ decompose 11 25 = (5, 9) := by
  refine ⟨fun e => by simp [decompose], fun b e hb hbe he => ?_, by decide, by decide, by decide⟩
  have hx : b - 1 ≠ e := by omega
  have hu_pos : 0 < (b - 1) ^^^ e := by
    rcases Nat.eq_zero_or_pos ((b - 1) ^^^ e) with h | h
    · exact absurd (Nat.xor_eq_zero.mp h) hx
    · exact h
  have hu_lt : (b - 1) ^^^ e < 2 ^ 64 := Nat.xor_lt_two_pow (by omega) he
  have hlog : ilog2 ((b - 1) ^^^ e) = Nat.log2 ((b - 1) ^^^ e) := by
    obtain ⟨h1, h2⟩ := ilog2_spec _ hu_pos hu_lt
    rw [Nat.log2_eq_log_two]
    exact (Nat.log_eq_of_pow_le_of_lt_pow h1 h2).symm
  simp only [decompose, if_neg (by omega : ¬ b = 0)]
  rw [hlog, Nat.shiftLeft_eq, Nat.one_mul]

/-- C5 witness: the general non-zero-start formula applied at `(3, 17)`. -/
theorem decompose_formula_witness :
    decompose 3 17 =
      (((3 - 1) ^^^ (2 ^ 64 - 1)) &&& (2 ^ Nat.log2 ((3 - 1) ^^^ 17) - 1),
        17 &&& (2 ^ Nat.log2 ((3 - 1) ^^^ 17) - 1)) :=
  decompose_formula.2.1 3 17 (by decide) (by decide) (by decide)

/-- C6: `from_params` fails with `StartGreaterThanEnd` exactly when
`start > end`, with `InvalidNumberOfPeaks` exactly when `start ≤ end` but the
peak count is not the expected one, and in every other case succeeds,
returning the MMR built from the three arguments unchanged (so every `Ok`
result carries exactly the given `start`, `end` and `peaks`). -/
theorem from_params_cases {D : Type} (start «end» : Nat) (peaks : List D) :
    (MMR.from_params start «end» peaks = .error .StartGreaterThanEnd ↔ start > «end») ∧
    (MMR.from_params start «end» peaks = .error .InvalidNumberOfPeaks ↔
      start ≤ «end» ∧ get_expected_num_peaks start «end» ≠ peaks.length) ∧
    (start ≤ «end» → get_expected_num_peaks start «end» = peaks.length →
      MMR.from_params start «end» peaks = .ok ⟨start, «end», peaks⟩) ∧
    (∀ m : MMR D, MMR.from_params start «end» peaks = .ok m →
      m.start = start ∧ m.«end» = «end» ∧ m.peaks = peaks) := by
  unfold MMR.from_params
  by_cases h1 : start > «end»
  · rw [if_pos h1]
    refine ⟨iff_of_true rfl h1, iff_of_false (fun h => ?_) (by omega),
      fun hle _ => absurd h1 (by omega), fun m hm => ?_⟩
    · injection h with h2
      exact MMRError.noConfusion h2
    · exact Except.noConfusion hm
  · rw [if_neg h1]
    by_cases h2 : get_expected_num_peaks start «end» ≠ peaks.length
    · rw [if_pos h2]
      refine ⟨iff_of_false (fun h => ?_) h1, iff_of_true rfl ⟨by omega, h2⟩,
        fun _ heq => absurd heq h2, fun m hm => ?_⟩
      · injection h with h3
        exact MMRError.noConfusion h3
      · exact Except.noConfusion hm
    · rw [if_neg h2]
      refine ⟨iff_of_false (fun h => Except.noConfusion h) h1,
        iff_of_false (fun h => Except.noConfusion h) (fun hr => h2 hr.2),
        fun _ _ => rfl, fun m hm => ?_⟩
      injection hm with h3
      cases h3
      exact ⟨rfl, rfl, rfl⟩

/-- C6 witness: the success case at `from_params 0 1 [7]`, asserting both the
`Ok` outcome itself and the field preservation it implies. -/
theorem from_params_cases_witness :
    MMR.from_params 0 1 [(7 : Nat)] = .ok ⟨0, 1, [7]⟩ ∧
      (⟨0, 1, [(7 : Nat)]⟩ : MMR Nat).start = 0 ∧ (⟨0, 1, [(7 : Nat)]⟩ : MMR Nat).«end» = 1 ∧
      (⟨0, 1, [(7 : Nat)]⟩ : MMR Nat).peaks = [7] :=
  ⟨(from_params_cases 0 1 [(7 : Nat)]).2.2.1 (by decide) (by decide),
    (from_params_cases 0 1 [(7 : Nat)]).2.2.2 ⟨0, 1, [7]⟩ rfl⟩

/-- C2: on a valid MMR with `end + 1 < 2^64`, `append` keeps the first
`|peaks| - k` peaks (saturating), where `k = trailing_zeros(!R)` for
`(_, R) = decompose(start, end)`, replaces the dropped tail by the right fold
of the combiner over it with the new element as initial accumulator, pushes
that digest as the new last peak, and increments `end`. -/
theorem append_steps {D : Type} (H : D → D → D) (m : MMR D) (element : D)
    (_hv : m.isValid) (he : m.«end» + 1 < 2 ^ 64) :
    MMR.append H m element =
      ⟨m.start, m.«end» + 1,
        m.peaks.take
            (m.peaks.length - trailing_zeros ((decompose m.start m.«end»).2 ^^^ (2 ^ 64 - 1))) ++
          [(m.peaks.drop
              (m.peaks.length -
                trailing_zeros ((decompose m.start m.«end»).2 ^^^ (2 ^ 64 - 1)))).foldr
            (fun peak acc => H peak acc) element]⟩ := by
  simp only [MMR.append]
  rw [Nat.mod_eq_of_lt he]

/-- C2 witness: appending onto the valid MMR `(0, 3, [10, 20])`. -/
theorem append_steps_witness :
    (⟨0, 3, [(10 : Nat), 20]⟩ : MMR Nat).isValid ∧ (3 : Nat) + 1 < 2 ^ 64 ∧
      MMR.append natComb ⟨0, 3, [10, 20]⟩ 7 = ⟨0, 4, [natComb 10 (natComb 20 7)]⟩ :=
  ⟨by decide, by decide,
    (append_steps natComb ⟨0, 3, [10, 20]⟩ 7 (by decide) (by decide)).trans (by decide)⟩

/-- C9: on a valid MMR with `end < 2^64 - 1`, `append` sets `end` to the old
`end + 1` and leaves `start` unchanged.  (The claim's frame clause — that no
operation other than `append` mutates an existing MMR — is enforced in the
source by the borrow checker: every other method takes `&self`; the embedding
is value-semantic.) -/
theorem append_frame {D : Type} (H : D → D → D) (m : MMR D) (element : D)
    (_hv : m.isValid) (he : m.«end» + 1 < 2 ^ 64) :
    (MMR.append H m element).«end» = m.«end» + 1 ∧
      (MMR.append H m element).start = m.start := by
  constructor
  · simp only [MMR.append]
    exact Nat.mod_eq_of_lt he
  · simp [MMR.append]

/-- C9 witness. -/
theorem append_frame_witness :
    (MMR.append natComb (⟨0, 3, [(10 : Nat), 20]⟩ : MMR Nat) 7).«end» = 3 + 1 ∧
      (MMR.append natComb (⟨0, 3, [(10 : Nat), 20]⟩ : MMR Nat) 7).start = 0 :=
  append_frame natComb ⟨0, 3, [10, 20]⟩ 7 (by decide) (by decide)

/-- C7 (amended): for digests whose bagged left and right roots are not the
reserved `ZERO` digest, `from_params(1,3,[e1,e2]).get_root() = H(e1,e2)` and
`from_params(1,5,[e1,e2,e3]).get_root() = H(H(e1,e2),e3)`.  For `(1,3)` the
bagged roots are `e1` and `e2`; for `(1,5)` they are `H(e1,e2)` and `e3`. -/
theorem get_root_nonzero_start {D : Type} [DecidableEq D] (H : D → D → D) (zero : D)
    (e1 e2 e3 : D) (h1 : e1 ≠ zero) (h2 : e2 ≠ zero) (h12 : H e1 e2 ≠ zero) (h3 : e3 ≠ zero) :
    (MMR.from_params 1 3 [e1, e2]).map (MMR.get_root H zero) = .ok (H e1 e2) ∧
      (MMR.from_params 1 5 [e1, e2, e3]).map (MMR.get_root H zero) =
        .ok (H (H e1 e2) e3) := by
  constructor
  · have hfp : MMR.from_params (D := D) 1 3 [e1, e2] = .ok ⟨1, 3, [e1, e2]⟩ := rfl
    rw [hfp]
    have hroot : MMR.get_root H zero (⟨1, 3, [e1, e2]⟩ : MMR D) = H e1 e2 := by
      simp only [MMR.get_root, show count_ones ((decompose 1 3).1) = 1 from rfl]
      simp [h1, h2]
    simp [Except.map, hroot]
  · have hfp : MMR.from_params (D := D) 1 5 [e1, e2, e3] = .ok ⟨1, 5, [e1, e2, e3]⟩ := rfl
    rw [hfp]
    have hroot : MMR.get_root H zero (⟨1, 5, [e1, e2, e3]⟩ : MMR D) = H (H e1 e2) e3 := by
      simp only [MMR.get_root, show count_ones ((decompose 1 5).1) = 2 from rfl]
      simp [h12, h3]
    simp [Except.map, hroot]

/-- C7 witness: concrete nonzero digests under the concrete combiner. -/
theorem get_root_nonzero_start_witness :
    (MMR.from_params 1 3 [(1 : Nat), 2]).map (MMR.get_root natComb 0) = .ok (natComb 1 2) ∧
      (MMR.from_params 1 5 [(1 : Nat), 2, 3]).map (MMR.get_root natComb 0) =
        .ok (natComb (natComb 1 2) 3) :=
  get_root_nonzero_start natComb 0 1 2 3 (by decide) (by decide) (by decide) (by decide)

/-- C7 counterexample: with `e1 = ZERO` the left bagging yields the zero
sentinel, `get_root` returns `e2` alone, and the claimed `H(e1, e2)` is wrong. -/
theorem get_root_nonzero_start_counterexample :
    (MMR.from_params 1 3 [(0 : Nat), 1]).map (MMR.get_root natComb 0) ≠
      .ok (natComb 0 1) := by decide

/-- For `b ∣ a` with `a, b > 0`, the predecessor of `a` leaves `b - 1` modulo
`b`. -/
theorem pred_mod_of_dvd (a b : Nat) (hb : 0 < b) (hdvd : b ∣ a) (ha : 0 < a) :
    (a - 1) % b = b - 1 := by
  obtain ⟨k, rfl⟩ := hdvd
  rcases k with _ | k
  · simp at ha
  · have h1 : b * (k + 1) - 1 = b * k + (b - 1) := by
      have h2 : b * (k + 1) = b * k + b := by ring
      omega
    rw [h1, Nat.mul_add_mod, Nat.mod_eq_of_lt (by omega)]

/-- C10: for `begin ≤ end` in u64 range, the two bitmaps returned by
`decompose`, read as unsigned integers, sum to the interval length
`end - begin` (so the leaves covered by the peaks of a valid MMR are exactly
its size). -/
theorem decompose_sum (b e : Nat) (hbe : b ≤ e) (he : e < 2 ^ 64) :
    (decompose b e).1 + (decompose b e).2 = e - b := by
  by_cases hb : b = 0
  · subst hb; simp [decompose]
  · have hxe : b - 1 < e := by omega
    have hu_pos : 0 < (b - 1) ^^^ e := by
      rcases Nat.eq_zero_or_pos ((b - 1) ^^^ e) with h | h
      · exact absurd (Nat.xor_eq_zero.mp h) (by omega)
      · exact h
    have hu_lt : (b - 1) ^^^ e < 2 ^ 64 := Nat.xor_lt_two_pow (by omega) he
    obtain ⟨hd2, hd1⟩ := ilog2_spec _ hu_pos hu_lt
    have hdle : ilog2 ((b - 1) ^^^ e) ≤ 63 := ilog2_le_63 _ hu_pos hu_lt
    simp only [decompose, if_neg hb]
    rw [Nat.shiftLeft_eq, Nat.one_mul]
    set x := b - 1 with hx
    set d := ilog2 (x ^^^ e) with hd
    have hdiv : e / 2 ^ d = x / 2 ^ d + 1 := (xor_bounds_div_bit x e d hxe hd2 hd1).1
    have hMmod : (2 ^ 64 - 1) % 2 ^ d = 2 ^ d - 1 :=
      pred_mod_of_dvd (2 ^ 64) (2 ^ d) (Nat.two_pow_pos d) (pow_dvd_pow 2 (by omega))
        (Nat.two_pow_pos 64)
    have hL : (x ^^^ (2 ^ 64 - 1)) &&& (2 ^ d - 1) = (x % 2 ^ d) ^^^ (2 ^ d - 1) := by
      rw [Nat.and_pow_two_sub_one_eq_mod, xor_mod_two_pow, hMmod]
    have hR : e &&& (2 ^ d - 1) = e % 2 ^ d := Nat.and_pow_two_sub_one_eq_mod e d
    have hsum : x % 2 ^ d + ((x % 2 ^ d) ^^^ (2 ^ d - 1)) = 2 ^ d - 1 :=
      xor_compl_sum d _ (Nat.mod_lt _ (Nat.two_pow_pos d))
    rw [hL, hR]
    have hxm := Nat.div_add_mod x (2 ^ d)
    have hem := Nat.div_add_mod e (2 ^ d)
    have hpq : 2 ^ d * (e / 2 ^ d) = 2 ^ d * (x / 2 ^ d) + 2 ^ d := by rw [hdiv]; ring
    have hp := Nat.two_pow_pos d
    omega

/-- C10 witness: at `(3, 17)`, `13 + 1 = 17 - 3`. -/
theorem decompose_sum_witness :
    (decompose 3 17).1 + (decompose 3 17).2 = 17 - 3 :=
  decompose_sum 3 17 (by decide) (by decide)

/-- C8 (amended): on a valid MMR with `start = 0` and `end = 2^k - 1`
(`k ≤ 63`), `append` collapses all existing peaks into the single new peak
obtained by right-folding the combiner over all of them — one combiner call
per existing peak. -/
theorem append_collapse_start_zero {D : Type} (H : D → D → D) (k : Nat) (m : MMR D)
    (element : D) (hk : k ≤ 63) (hv : m.isValid) (hs : m.start = 0)
    (he : m.«end» = 2 ^ k - 1) :
    (MMR.append H m element).peaks =
      [m.peaks.foldr (fun peak acc => H peak acc) element] := by
  obtain ⟨-, -, hlen⟩ := hv
  have hklt : (2 : Nat) ^ k - 1 < 2 ^ 64 := by
    have h1 : (2 : Nat) ^ k ≤ 2 ^ 63 := Nat.pow_le_pow_right (by omega) hk
    have h2 : (2 : Nat) ^ 63 < 2 ^ 64 := by norm_num
    omega
  have hdec : decompose 0 (2 ^ k - 1) = (0, 2 ^ k - 1) := by simp [decompose]
  have hexp : get_expected_num_peaks 0 (2 ^ k - 1) = k := by
    simp only [get_expected_num_peaks, hdec]
    show count_ones 0 + count_ones (2 ^ k - 1) = k
    rw [show count_ones 0 = 0 from rfl, count_ones_eq_pc _ hklt, pc_two_pow_sub_one]
    omega
  have hlenk : m.peaks.length = k := by rw [hlen, hs, he, hexp]
  have hxorv : (2 ^ k - 1) ^^^ (2 ^ 64 - 1) = 2 ^ 64 - 2 ^ k := by
    have hs1 := xor_compl_sum 64 (2 ^ k - 1) hklt
    have h1 : (2 : Nat) ^ k ≤ 2 ^ 64 := Nat.pow_le_pow_right (by omega) (by omega)
    have h2 : 0 < (2 : Nat) ^ k := Nat.two_pow_pos k
    have h3 : 0 < (2 : Nat) ^ 64 := Nat.two_pow_pos 64
    omega
  have hMih : 0 < (2 : Nat) ^ (64 - k) := Nat.two_pow_pos _
  have hfact : 2 ^ 64 - 2 ^ k = 2 ^ k * (2 ^ (64 - k) - 1) := by
    have h1 : (2 : Nat) ^ k * 2 ^ (64 - k) = 2 ^ 64 := by
      rw [← pow_add]; congr 1; omega
    have h3 : 2 ^ k * (2 ^ (64 - k) - 1) + 2 ^ k = 2 ^ k * 2 ^ (64 - k) := by
      rw [← Nat.mul_succ]
      congr 1
      omega
    omega
  have hmodd : (2 ^ (64 - k) - 1) % 2 = 1 := by
    have h2 : (2 : Nat) ^ (64 - k) % 2 = 0 := by
      have h3 : 64 - k = (63 - k) + 1 := by omega
      rw [h3, pow_succ]
      omega
    omega
  have htz : trailing_zeros ((2 ^ k - 1) ^^^ (2 ^ 64 - 1)) = k := by
    rw [hxorv, hfact]
    exact trailing_zeros_two_pow_mul k _ (by omega) hmodd
  simp only [MMR.append, hs, he]
  rw [show (decompose 0 (2 ^ k - 1)).2 = 2 ^ k - 1 by simp [decompose], htz, hlenk]
  simp

/-- C8 witness: appending onto the full MMR `(0, 3, [10, 20])` (`k = 2`). -/
theorem append_collapse_start_zero_witness :
    (MMR.append natComb (⟨0, 3, [(10 : Nat), 20]⟩ : MMR Nat) 7).peaks =
      [([(10 : Nat), 20]).foldr (fun peak acc => natComb peak acc) 7] :=
  append_collapse_start_zero natComb 2 ⟨0, 3, [10, 20]⟩ 7 (by decide) (by decide) rfl rfl

/-- C8 counterexample: the valid MMR `(2, 7, [p1, p2, p3])` has
`end = 2^3 - 1`, yet `append` keeps its first peak: two peaks result, not
one. -/
theorem append_collapse_counterexample :
    MMR.from_params 2 7 [(1 : Nat), 2, 3] = .ok ⟨2, 7, [1, 2, 3]⟩ ∧
      (7 : Nat) = 2 ^ 3 - 1 ∧ (3 : Nat) ≤ 63 ∧
      (MMR.append natComb ⟨2, 7, [1, 2, 3]⟩ 9).peaks.length = 2 := by decide

/-- C1 (failing input): both inputs are accepted by `from_params`, yet their
merge — the ranges `[0,3)` and `[3,8)` — returns an MMR with two peaks where
`get_expected_num_peaks 0 8 = 1`: the stale `seed_range_start` makes the
zipper break one height early, and the result violates the peak-count
invariant. -/
theorem merge_invariant_failure :
    MMR.from_params 0 3 [(1 : Nat), 2] = .ok ⟨0, 3, [1, 2]⟩ ∧
      MMR.from_params 3 8 [(3 : Nat), 4] = .ok ⟨3, 8, [3, 4]⟩ ∧
      MMR.merge natComb ⟨0, 3, [1, 2]⟩ ⟨3, 8, [3, 4]⟩ =
        some (.ok ⟨0, 8, [natComb 1 (natComb 2 3), 4]⟩) ∧
      (⟨0, 8, [natComb 1 (natComb 2 3), 4]⟩ : MMR Nat).peaks.length = 2 ∧
      get_expected_num_peaks 0 8 = 1 ∧
      MMR.from_params 0 8 [natComb 1 (natComb 2 3), 4] =
        .error .InvalidNumberOfPeaks := by decide

/-- C4 counterexample: two valid pairs pass both precondition checks — so the
claim demands an `Ok` result — yet the code panics (modeled as `none`).
First, two empty MMRs are valid, adjacent (`a.end = 0 = b.start`) and
zero-starting, but `merge` calls `self.peaks.last().unwrap()` on an empty
vector.  Second, the valid nonempty pair `(0, 2^63, [5])`, `(2^63, 2^63, [])`
is adjacent and zero-starting, but at seed height 63 the u64 shift
`layer_coverage << 1` silently drops the bit past position 63, so
`merged_range_end` collapses to `seed_range_start = 0`, the break test
`merged_range_end > other.end` fails, and `other.peaks[0]` is indexed out of
bounds (in both Rust profiles). -/
theorem merge_panics_despite_checks :
    (MMR.merge natComb (MMR.new (D := Nat)) MMR.new = none ∧
      (MMR.new (D := Nat)).isValid ∧
      (MMR.new (D := Nat)).«end» = (MMR.new (D := Nat)).start ∧
      (MMR.new (D := Nat)).start = 0) ∧
    (MMR.merge natComb (⟨0, 2 ^ 63, [5]⟩ : MMR Nat) ⟨2 ^ 63, 2 ^ 63, []⟩ = none ∧
      (⟨0, 2 ^ 63, [(5 : Nat)]⟩ : MMR Nat).isValid ∧
      (⟨2 ^ 63, 2 ^ 63, ([] : List Nat)⟩ : MMR Nat).isValid ∧
      (⟨0, 2 ^ 63, [(5 : Nat)]⟩ : MMR Nat).peaks ≠ []) := by decide

/-- The leaf sequence `[leaf 0, …, leaf 10]` for the C3 failing input. -/
def leavesA : List HTree := (List.range 11).map HTree.leaf

/-- The leaf sequence `[leaf 11, …, leaf 16]` for the C3 failing input. -/
def leavesB : List HTree := (List.range' 11 6).map HTree.leaf

/-- The left MMR `[0, 11)` of the C3 failing input, built by `from_leaves`. -/
def mmrA : MMR HTree := MMR.from_leaves HTree.node leavesA

/-- The right MMR `[11, 17)` of the C3 failing input, built by appending onto
the empty range starting at `11`. -/
def mmrB : MMR HTree := leavesB.foldl (fun m l => MMR.append HTree.node m l) ⟨11, 11, []⟩

/-- A zero digest for the free combiner that no combiner output or leaf of the
C3 failing input can collide with. -/
def zeroH : HTree := HTree.leaf 999

/-- C3 (failing input): merging `[0,11)` with `[11,17)` succeeds (with four
peaks left by the early zipper break), but its root hashes the leftover peaks
in a different association than `from_leaves` over the concatenated leaves,
so the two roots differ as hash expressions. -/
theorem merge_root_mismatch :
    (MMR.merge HTree.node mmrA mmrB).map
        (fun r => r.map (MMR.get_root HTree.node zeroH)) ≠
      some (.ok (MMR.get_root HTree.node zeroH
        (MMR.from_leaves HTree.node (leavesA ++ leavesB)))) ∧
      (MMR.merge HTree.node mmrA mmrB).map (fun r => r.map (fun m => m.peaks.length)) =
        some (.ok 4) ∧
      mmrA.start = 0 ∧ mmrA.«end» = 11 ∧ mmrB.start = 11 ∧ mmrB.«end» = 17 := by decide

/-! ### C4: merge never panics on valid nonempty inputs below the u64 wrap -/

theorem pc_mod_add_div (s g : Nat) : pc s = pc (s / 2 ^ g) + pc (s % 2 ^ g) := by
  conv_lhs => rw [← Nat.div_add_mod s (2 ^ g)]
  rw [pc_two_pow_mul_add _ _ _ (Nat.mod_lt _ (Nat.two_pow_pos g))]

/-- Adding `r < 2 ^ t` to a multiple of `2 ^ t` does not carry into any bit at
height `≥ t`: all quotients by `2 ^ g` (`g ≥ t`) are unchanged and the low
residues simply add. -/
theorem div_mod_aligned (s t g r : Nat) (hmod : s % 2 ^ t = 0) (htg : t ≤ g)
    (hr : r < 2 ^ t) :
    (s + r) / 2 ^ g = s / 2 ^ g ∧ (s + r) % 2 ^ g = s % 2 ^ g + r := by
  have hdvd : (2 : Nat) ^ t ∣ 2 ^ g := pow_dvd_pow 2 htg
  have hmm : s % 2 ^ g % 2 ^ t = 0 := by rw [Nat.mod_mod_of_dvd s hdvd, hmod]
  obtain ⟨q, hq⟩ := Nat.dvd_of_mod_eq_zero hmm
  have hgsplit : (2 : Nat) ^ g = 2 ^ (g - t) * 2 ^ t := by rw [← pow_add]; congr 1; omega
  have hlt : s % 2 ^ g < 2 ^ g := Nat.mod_lt _ (Nat.two_pow_pos g)
  have hbound : s % 2 ^ g + r < 2 ^ g := by
    have hqlt : q < 2 ^ (g - t) := by
      by_contra hcon
      have h1 : 2 ^ (g - t) * 2 ^ t ≤ q * 2 ^ t := Nat.mul_le_mul_right _ (by omega)
      have h2 : q * 2 ^ t = 2 ^ t * q := Nat.mul_comm _ _
      omega
    have h2 : 2 ^ t * (q + 1) ≤ 2 ^ t * 2 ^ (g - t) := Nat.mul_le_mul_left _ (by omega)
    have h3 : 2 ^ t * (q + 1) = 2 ^ t * q + 2 ^ t := by ring
    have h4 : (2 : Nat) ^ t * 2 ^ (g - t) = 2 ^ g := by rw [← pow_add]; congr 1; omega
    omega
  constructor
  · conv_lhs => rw [← Nat.div_add_mod s (2 ^ g)]
    rw [Nat.add_assoc, Nat.mul_add_div (Nat.two_pow_pos g), Nat.div_eq_of_lt hbound,
      Nat.add_zero]
  · conv_lhs => rw [← Nat.div_add_mod s (2 ^ g)]
    rw [Nat.add_assoc, Nat.mul_add_mod, Nat.mod_eq_of_lt hbound]

/-- Core safety of the `merge` zipper loop.  `s` is `seed_range_start`,
`t` the seed height, and `d` a height at which a right-merge attempt is
guaranteed to break (`N < s + 2^(d+1)` with bit `d` of `s` clear).  Starting
at any height `t ≤ h ≤ d` with the cursors matching the bit-counting
invariant — `lc` many peaks of `sp` left of the cursor, `rc` consumed peaks
of `op` — the loop never hits a `none` (panic) exit.  The bounds `d ≤ 62`
and `s < 2 ^ 63` keep every u64 operation of the body exact: `2 ^ (h + 1)`
survives the value-truncating `<< 1` and `s + 2 ^ (h + 1)` stays below
`2 ^ 64`, so neither overflow guard fires. -/
theorem mergeLoop_isSome {D : Type} (H : D → D → D) (sp op : List D) (N s t d : Nat)
    (hd62 : d ≤ 62) (htd : t ≤ d) (hs63 : s < 2 ^ 63)
    (hsp : sp.length = pc s + 1)
    (hop : (d - t) - pc (s % 2 ^ d) ≤ op.length)
    (hbreak : N < s + 2 ^ (d + 1))
    (hbitd : (s / 2 ^ d) % 2 = 0) :
    ∀ fuel seed h lc rc, t ≤ h → h ≤ d →
      lc + pc (s % 2 ^ h) = pc s →
      rc + pc (s % 2 ^ h) + t = h →
      ∃ out, MMR.mergeLoop H sp op N s fuel seed h (s / 2 ^ h) lc rc = some out := by
  intro fuel
  induction fuel with
  | zero =>
    intro seed h lc rc _ _ _ _
    exact ⟨_, rfl⟩
  | succ fuel ih =>
    intro seed h lc rc hth hhd hlc hrc
    simp only [MMR.mergeLoop]
    rw [if_neg (by omega : ¬ 255 ≤ h), if_neg (by omega : ¬ 64 ≤ h)]
    have hlayer1 : (1 : Nat) <<< h = 2 ^ h := by rw [Nat.shiftLeft_eq, Nat.one_mul]
    by_cases hpar : (s / 2 ^ h) % 2 = 0
    · rw [if_pos hpar]
      have hl2a : ((1 : Nat) <<< h) <<< 1 = 2 ^ (h + 1) := by
        rw [hlayer1, Nat.shiftLeft_eq, ← pow_add]
      have hpow63 : (2 : Nat) ^ (h + 1) ≤ 2 ^ 63 := Nat.pow_le_pow_right (by omega) (by omega)
      have hp64 : (2 : Nat) ^ 64 = 2 ^ 63 * 2 := by rw [← pow_succ]
      have hlayer2 : ((1 : Nat) <<< h) <<< 1 % 2 ^ 64 = 2 ^ (h + 1) := by
        rw [hl2a]
        exact Nat.mod_eq_of_lt (by omega)
      rw [hlayer2, if_neg (by omega : ¬ 2 ^ 64 ≤ s + 2 ^ (h + 1))]
      by_cases hbr : N < s + 2 ^ (h + 1)
      · rw [if_pos hbr]
        exact ⟨_, rfl⟩
      · rw [if_neg hbr]
        have hhd2 : h < d := by
          rcases Nat.lt_or_ge h d with h1 | h1
          · exact h1
          · have hEq : h = d := by omega
            subst hEq
            omega
        have hstep : pc (s % 2 ^ (h + 1)) = pc (s % 2 ^ h) := by
          rw [pc_mod_two_pow_succ, hpar]
          omega
        have hPL : pc (s % 2 ^ d) ≤ pc (s % 2 ^ (h + 1)) + (d - (h + 1)) :=
          pc_mod_le s (h + 1) d (by omega)
        have hrclt : rc < op.length := by omega
        obtain ⟨p, hp⟩ : ∃ p, op[rc]? = some p := ⟨_, List.getElem?_eq_getElem hrclt⟩
        rw [hp]
        have hidx : s / 2 ^ h / 2 = s / 2 ^ (h + 1) := by
          rw [Nat.div_div_eq_div_mul, ← pow_succ]
        rw [hidx]
        exact ih (H seed p) (h + 1) lc (rc + 1) (by omega) (by omega) (by omega) (by omega)
    · rw [if_neg hpar]
      have hpar1 : (s / 2 ^ h) % 2 = 1 :=
        (Nat.mod_two_eq_zero_or_one _).resolve_left hpar
      have hpow : 2 ^ h ≤ s := by
        have h1 : 1 ≤ s / 2 ^ h :=
          Nat.pos_of_ne_zero (fun h0 => by rw [h0] at hpar1; simp at hpar1)
        have h2 : 1 * 2 ^ h ≤ s / 2 ^ h * 2 ^ h := Nat.mul_le_mul_right _ h1
        have h3 : s / 2 ^ h * 2 ^ h ≤ s := Nat.div_mul_le_self s (2 ^ h)
        omega
      rw [hlayer1, if_neg (by omega : ¬ s < 2 ^ h)]
      have hstep : pc (s % 2 ^ (h + 1)) = pc (s % 2 ^ h) + 1 := by
        rw [pc_mod_two_pow_succ, hpar1]
      have hhd2 : h < d := by
        rcases Nat.lt_or_ge h d with h1 | h1
        · exact h1
        · have hEq : h = d := by omega
          subst hEq
          omega
      have hsum := pc_mod_add_div s (h + 1)
      have hge1 : 1 ≤ lc := by omega
      rw [if_neg (by omega : ¬ lc = 0)]
      have hlt : lc - 1 < sp.length := by omega
      obtain ⟨p, hp⟩ : ∃ p, sp[lc - 1]? = some p := ⟨_, List.getElem?_eq_getElem hlt⟩
      rw [hp]
      have hidx : s / 2 ^ h / 2 = s / 2 ^ (h + 1) := by
        rw [Nat.div_div_eq_div_mul, ← pow_succ]
      rw [hidx]
      exact ih (H p seed) (h + 1) (lc - 1) rc (by omega) (by omega) (by omega) (by omega)

/-- The zipper loop, as `merge` invokes it on a valid nonempty zero-starting
left MMR (`sp`, range `[0, n)`) and a valid adjacent right MMR (`op`, range
`[n, N)`), returns without panicking — provided `N < 2 ^ 63`, which keeps
the walk strictly below height 63 where the u64 shifts are exact.  (At
`N ≥ 2 ^ 63` the loop can reach height 63, where the value-truncated
`layer_coverage << 1` defeats the break test and the loop panics on
reachable inputs; see the C4 counterexample.) -/
theorem mergeLoop_total {D : Type} (H : D → D → D) (sp op : List D) (n N : Nat) (seed : D)
    (hn : 0 < n) (hn64 : n < 2 ^ 64) (hnN : n ≤ N) (hN63 : N < 2 ^ 63)
    (hsp : sp.length = pc n)
    (hop : op.length = get_expected_num_peaks n N) :
    ∃ out, MMR.mergeLoop H sp op N
      (((n - 1) >>> trailing_zeros n) * (1 <<< trailing_zeros n)) 255 seed
      (trailing_zeros n) ((n - 1) >>> trailing_zeros n) (sp.length - 1) 0 = some out := by
  obtain ⟨c, hc⟩ := trailing_zeros_exists n hn hn64
  set t := trailing_zeros n with ht
  have h2t := Nat.two_pow_pos t
  have htle : (2 : Nat) ^ t ≤ n := by
    rw [hc]
    exact Nat.le_mul_of_pos_right _ (by omega)
  have ht62 : t ≤ 62 := by
    by_contra hcon
    have h1 : (2 : Nat) ^ 63 ≤ 2 ^ t := Nat.pow_le_pow_right (by omega) (by omega)
    omega
  have hxval : n - 1 = 2 ^ t * (2 * c) + (2 ^ t - 1) := by
    have h3 : 2 ^ t * (2 * c + 1) = 2 ^ t * (2 * c) + 2 ^ t := by ring
    omega
  have hxdiv : (n - 1) / 2 ^ t = 2 * c := by
    rw [hxval, Nat.mul_add_div h2t, Nat.div_eq_of_lt (by omega), Nat.add_zero]
  have hsr : (n - 1) >>> t = 2 * c := by rw [Nat.shiftRight_eq_div_pow, hxdiv]
  have hshl : (1 : Nat) <<< t = 2 ^ t := by rw [Nat.shiftLeft_eq, Nat.one_mul]
  rw [hsr, hshl]
  set s := 2 * c * 2 ^ t with hs
  have hsmod : s % 2 ^ t = 0 := by rw [hs]; exact Nat.mul_mod_left _ _
  have hsdiv : s / 2 ^ t = 2 * c := by rw [hs]; exact Nat.mul_div_cancel _ h2t
  have hseq : s = 2 ^ t * (2 * c) := by rw [hs]; ring
  have hns : n = s + 2 ^ t := by rw [hseq]; omega
  have hpcn : pc n = pc s + 1 := by
    have hA : pc (2 * c + 1) = pc c + 1 := pc_bit c 1 (by omega)
    have hB : pc (2 * c) = pc c := by
      have h0 := pc_bit c 0 (by omega)
      simpa using h0
    rw [hc, hseq, pc_two_pow_mul, pc_two_pow_mul, hA, hB]
  rw [hsp, hpcn, Nat.add_sub_cancel, ← hsdiv]
  have hinv1 : pc s + pc (s % 2 ^ t) = pc s := by rw [hsmod]; simp [pc]
  have hinv2 : 0 + pc (s % 2 ^ t) + t = t := by rw [hsmod]; simp [pc]
  have hsplen : sp.length = pc s + 1 := by rw [hsp, hpcn]
  rcases Nat.eq_or_lt_of_le hnN with heqN | hltN
  · -- b covers the empty range [n, n): the first right-merge attempt breaks
    have hp1 : (2 : Nat) ^ (t + 1) = 2 ^ t * 2 := pow_succ 2 t
    exact mergeLoop_isSome H sp op N s t t ht62 (le_refl t) (by omega) hsplen
      (by omega) (by omega) (by omega)
      255 seed t (pc s) 0 (le_refl t) (le_refl t) hinv1 hinv2
  · -- n < N: the divergence height d bounds the walk
    have hN64 : N < 2 ^ 64 := lt_trans hN63 (by norm_num)
    have hxN : n - 1 < N := by omega
    have hu_pos : 0 < (n - 1) ^^^ N := by
      rcases Nat.eq_zero_or_pos ((n - 1) ^^^ N) with h | h
      · exact absurd (Nat.xor_eq_zero.mp h) (by omega)
      · exact h
    have hu64 : (n - 1) ^^^ N < 2 ^ 64 := Nat.xor_lt_two_pow (by omega) hN64
    have hu63 : (n - 1) ^^^ N < 2 ^ 63 := Nat.xor_lt_two_pow (by omega) hN63
    obtain ⟨hd2, hd1⟩ := ilog2_spec _ hu_pos hu64
    set d := ilog2 ((n - 1) ^^^ N) with hd
    have hd62 : d ≤ 62 := by
      by_contra hcon
      have h1 : (2 : Nat) ^ 63 ≤ 2 ^ d := Nat.pow_le_pow_right (by omega) (by omega)
      omega
    obtain ⟨hdivd, hbitx⟩ := xor_bounds_div_bit (n - 1) N d hxN hd2 hd1
    have htd : t ≤ d := by
      by_contra hcon
      have hdt : d + 1 ≤ t := by omega
      have hdvd1 : (2 : Nat) ^ (d + 1) ∣ 2 ^ t := pow_dvd_pow 2 hdt
      have hxmodt : (n - 1) % 2 ^ t = 2 ^ t - 1 := by
        rw [hxval, Nat.mul_add_mod]
        exact Nat.mod_eq_of_lt (by omega)
      have hxmodd1 : (n - 1) % 2 ^ (d + 1) = 2 ^ (d + 1) - 1 := by
        rw [← Nat.mod_mod_of_dvd _ hdvd1, hxmodt]
        exact pred_mod_of_dvd _ _ (Nat.two_pow_pos _) hdvd1 h2t
      have hsplit : (n - 1) % 2 ^ (d + 1) =
          (n - 1) % 2 ^ d + 2 ^ d * ((n - 1) / 2 ^ d % 2) := by
        rw [pow_succ, Nat.mod_mul]
      rw [hbitx] at hsplit
      have hxd : (n - 1) % 2 ^ d < 2 ^ d := Nat.mod_lt _ (Nat.two_pow_pos d)
      have hpe : (2 : Nat) ^ (d + 1) = 2 ^ d * 2 := pow_succ 2 d
      omega
    have hxs : n - 1 = s + (2 ^ t - 1) := by omega
    have halignd := div_mod_aligned s t d (2 ^ t - 1) hsmod htd (by omega)
    have halignd1 := div_mod_aligned s t (d + 1) (2 ^ t - 1) hsmod (by omega) (by omega)
    have hbitd : (s / 2 ^ d) % 2 = 0 := by
      have h1 := halignd.1
      rw [← hxs] at h1
      omega
    have hbreak : N < s + 2 ^ (d + 1) := by
      have hhigh : N / 2 ^ (d + 1) = (n - 1) / 2 ^ (d + 1) := by
        have e1 : N / 2 ^ (d + 1) = N / 2 ^ d / 2 := by
          rw [Nat.div_div_eq_div_mul, ← pow_succ]
        have e2 : (n - 1) / 2 ^ (d + 1) = (n - 1) / 2 ^ d / 2 := by
          rw [Nat.div_div_eq_div_mul, ← pow_succ]
        omega
      have hsd1 : (n - 1) / 2 ^ (d + 1) = s / 2 ^ (d + 1) := by
        have h1 := halignd1.1
        rw [← hxs] at h1
        exact h1
      have hNm := Nat.div_add_mod N (2 ^ (d + 1))
      have hsm := Nat.div_add_mod s (2 ^ (d + 1))
      have hml : N % 2 ^ (d + 1) < 2 ^ (d + 1) := Nat.mod_lt _ (Nat.two_pow_pos _)
      have hprod : 2 ^ (d + 1) * (N / 2 ^ (d + 1)) = 2 ^ (d + 1) * (s / 2 ^ (d + 1)) := by
        rw [hhigh, hsd1]
      omega
    have hop2 : (d - t) - pc (s % 2 ^ d) ≤ op.length := by
      rw [hop]
      have hn0 : ¬ n = 0 := by omega
      have hdecnN : decompose n N =
          (((n - 1) ^^^ (2 ^ 64 - 1)) &&& (2 ^ d - 1), N &&& (2 ^ d - 1)) := by
        simp only [decompose]
        rw [if_neg hn0, hd, Nat.shiftLeft_eq, Nat.one_mul]
      have hexpnN : get_expected_num_peaks n N =
          count_ones (((n - 1) ^^^ (2 ^ 64 - 1)) &&& (2 ^ d - 1)) +
            count_ones (N &&& (2 ^ d - 1)) := by
        simp only [get_expected_num_peaks, hdecnN]
      have hMmod : (2 ^ 64 - 1) % 2 ^ d = 2 ^ d - 1 :=
        pred_mod_of_dvd _ _ (Nat.two_pow_pos d) (pow_dvd_pow 2 (by omega))
          (Nat.two_pow_pos 64)
      have hLval : ((n - 1) ^^^ (2 ^ 64 - 1)) &&& (2 ^ d - 1) =
          ((n - 1) % 2 ^ d) ^^^ (2 ^ d - 1) := by
        rw [Nat.and_pow_two_sub_one_eq_mod, xor_mod_two_pow, hMmod]
      have hLlt : ((n - 1) % 2 ^ d) ^^^ (2 ^ d - 1) < 2 ^ 64 := by
        have h1 : (n - 1) % 2 ^ d < 2 ^ d := Nat.mod_lt _ (Nat.two_pow_pos d)
        have h2 : (2 : Nat) ^ d < 2 ^ 64 := Nat.pow_lt_pow_right (by omega) (by omega)
        exact Nat.xor_lt_two_pow (by omega) (by omega)
      have hpcL : pc ((n - 1) % 2 ^ d) + pc (((n - 1) % 2 ^ d) ^^^ (2 ^ d - 1)) = d :=
        pc_xor_compl_add d _ (Nat.mod_lt _ (Nat.two_pow_pos d))
      obtain ⟨q, hq⟩ := Nat.dvd_of_mod_eq_zero (show s % 2 ^ d % 2 ^ t = 0 by
        rw [Nat.mod_mod_of_dvd _ (pow_dvd_pow 2 htd), hsmod])
      have hxmodd : (n - 1) % 2 ^ d = s % 2 ^ d + (2 ^ t - 1) := by
        have h1 := halignd.2
        rw [← hxs] at h1
        exact h1
      have hpcx : pc ((n - 1) % 2 ^ d) = pc (s % 2 ^ d) + t := by
        rw [hxmodd, hq, pc_two_pow_mul_add _ _ _ (by omega), pc_two_pow_mul,
          pc_two_pow_sub_one]
      rw [hexpnN, hLval, count_ones_eq_pc _ hLlt]
      omega
    exact mergeLoop_isSome H sp op N s t d hd62 htd (by omega) hsplen hop2 hbreak hbitd
      255 seed t (pc s) 0 (le_refl t) htd hinv1 hinv2

/-- Reduction of `merge` once both precondition checks pass and the left MMR
is nonempty: the result is the zipper-loop call dressed up in the final
peak-vector assembly. -/
theorem merge_checks_pass {D : Type} (H : D → D → D) (a b : MMR D)
    (heq : a.«end» = b.start) (hz : a.start = 0) (p : D)
    (hp : a.peaks.getLast? = some p) :
    MMR.merge H a b =
      match MMR.mergeLoop H a.peaks b.peaks b.«end»
          (((a.«end» - 1) >>> trailing_zeros a.«end») * (1 <<< trailing_zeros a.«end»)) 255
          p (trailing_zeros a.«end») ((a.«end» - 1) >>> trailing_zeros a.«end»)
          (a.peaks.length - 1) 0 with
      | none => none
      | some (seed, lc, rc) =>
        some (.ok ⟨a.start, b.«end», a.peaks.take lc ++ [seed] ++ b.peaks.drop rc⟩) := by
  unfold MMR.merge
  rw [if_neg (not_ne_iff.mpr heq), if_neg (not_ne_iff.mpr hz), hp]

/-- C4 (amended): on valid MMRs `a`, `b` with `a` nonempty and
`b.end < 2 ^ 63`, `merge` returns the error `MergeError` exactly when
`a.end ≠ b.start` or `a.start ≠ 0`, and in every other case returns an `Ok`
MMR as a first-class value with no other failure mode (no panic).  Both side
conditions are forced by reachable panics inside the claimed region,
exhibited by the counterexample to the original claim: with `a` empty the
checks pass yet `self.peaks.last().unwrap()` panics, and from
`b.end ≥ 2 ^ 63` the u64 value truncation of `layer_coverage << 1` at height
63 defeats the loop's break test and `other.peaks` is indexed out of
bounds. -/
theorem merge_error_characterization {D : Type} (H : D → D → D) (a b : MMR D)
    (ha : a.isValid) (hb : b.isValid) (hne : a.peaks ≠ [])
    (hb63 : b.«end» < 2 ^ 63) :
    (MMR.merge H a b = some (.error .MergeError) ↔ a.«end» ≠ b.start ∨ a.start ≠ 0) ∧
      (a.«end» = b.start → a.start = 0 → ∃ m, MMR.merge H a b = some (.ok m)) := by
  obtain ⟨has, hae, halen⟩ := ha
  obtain ⟨hbs, _hbe, hblen⟩ := hb
  have hmain : a.«end» = b.start → a.start = 0 → ∃ m, MMR.merge H a b = some (.ok m) := by
    intro heq hz
    have hlast := List.getLast?_eq_getLast a.peaks hne
    have hred := merge_checks_pass H a b heq hz _ hlast
    have halen2 : a.peaks.length = pc a.«end» := by
      rw [halen, hz]
      have hdec : decompose 0 a.«end» = (0, a.«end») := by simp [decompose]
      simp only [get_expected_num_peaks, hdec]
      show count_ones 0 + count_ones a.«end» = pc a.«end»
      rw [show count_ones 0 = 0 from rfl, count_ones_eq_pc _ hae]
      omega
    have hnpos : 0 < a.«end» := by
      rcases Nat.eq_zero_or_pos a.«end» with h0 | h0
      · exfalso
        rw [h0] at halen2
        have hz2 : a.peaks.length = 0 := by rw [halen2]; simp [pc]
        exact hne (List.length_eq_zero.mp hz2)
      · exact h0
    have hnN : a.«end» ≤ b.«end» := by rw [heq]; exact hbs
    obtain ⟨⟨seed, lc, rc⟩, hout⟩ := mergeLoop_total H a.peaks b.peaks a.«end» b.«end»
      (a.peaks.getLast hne) hnpos hae hnN hb63 halen2 (by rw [hblen, heq])
    refine ⟨⟨a.start, b.«end», a.peaks.take lc ++ [seed] ++ b.peaks.drop rc⟩, ?_⟩
    rw [hred, hout]
  refine ⟨⟨?_, ?_⟩, hmain⟩
  · intro hmerge
    by_contra hc
    push_neg at hc
    obtain ⟨m, hm⟩ := hmain hc.1 hc.2
    rw [hm] at hmerge
    simp at hmerge
  · intro hcond
    unfold MMR.merge
    by_cases h1 : a.«end» ≠ b.start
    · rw [if_pos h1]
    · rw [if_neg h1]
      have h2 : a.start ≠ 0 := by tauto
      rw [if_pos h2]

/-- C4 witness: the error characterization applied to the valid nonempty pair
`(0, 1, [5])`, `(1, 1, [])`. -/
theorem merge_error_characterization_witness :
    MMR.merge natComb (⟨0, 1, [(5 : Nat)]⟩ : MMR Nat) ⟨1, 1, []⟩ =
        some (.error .MergeError) ↔
      (⟨0, 1, [(5 : Nat)]⟩ : MMR Nat).«end» ≠ (⟨1, 1, ([] : List Nat)⟩ : MMR Nat).start ∨
        (⟨0, 1, [(5 : Nat)]⟩ : MMR Nat).start ≠ 0 :=
  (merge_error_characterization natComb ⟨0, 1, [5]⟩ ⟨1, 1, []⟩ (by decide) (by decide)
    (by decide) (by decide)).1
